import Mathlib

/-!
Verification of the custom tensorflow layers of the `apehex/gpm` repository
(`src/mlable/tensorflow/layers.py`) and of the tokun encoder composition
(`src/mlable/models/tokun/tokun.4x4.keras.py`).

Tensors are shallowly embedded as a flat data list together with a shape
list; `tf.reshape` never reorders data, it only revalidates the shape, so
the reshaping layers (`Merge`, `Reshape`) act on the shape alone.
-/

namespace Mlable

/-- A dense tensor: a shape (list of dimension sizes, outermost first) and the
flat row-major data buffer.  `tf.Tensor` values are modelled this way because
every operation the reshaping layers perform is either a shape computation or
a data-preserving reinterpretation. -/
structure Tensor (α : Type) where
  shape : List ℕ
  data : List α
deriving DecidableEq, Repr

/-- Resolution of a (possibly negative) axis argument against a rank, as in
`__axis0 = self._axis % len(__shape)` (layers.py line 262).  Python's `%` with
a positive modulus agrees with `Int.emod`. -/
def axisResolve (axis : ℤ) (rank : ℕ) : ℕ :=
  (axis % (rank : ℤ)).toNat

/-- Target shape computed by `Merge.call` (layers.py lines 261-266): the merge
axis is floor-divided by the group factor `n` and the *following* axis — taken
modulo the rank, hence wrapping to axis 0 when the merge axis is the last
one — is multiplied by `n`.  Both dimension values are read from the original
shape (`inputs.shape[...]`), exactly as in the source. -/
def mergeShape (axis : ℤ) (n : ℕ) (s : List ℕ) : List ℕ :=
  let a0 := axisResolve axis s.length
  let a1 := axisResolve (axis + 1) s.length
  (s.set a0 (s.getD a0 0 / n)).set a1 (s.getD a1 0 * n)

/-- `Merge.call` (layers.py lines 260-267).  Failure cases are the ones Python
raises: a scalar input makes `self._axis % len(__shape)` divide by zero, a zero
factor makes `inputs.shape[__axis0] // self._n` divide by zero, and a target
shape whose element count differs from the input's makes `tf.reshape` raise an
invalid-argument error.  On success the data buffer is reinterpreted
unchanged. -/
def mergeCall {α : Type} (axis : ℤ) (n : ℕ) (x : Tensor α) : Except String (Tensor α) :=
  if x.shape.length = 0 then
    .error "ZeroDivisionError: integer modulo by zero"
  else if n = 0 then
    .error "ZeroDivisionError: integer division by zero"
  else if (mergeShape axis n x.shape).prod = x.data.length then
    .ok ⟨mergeShape axis n x.shape, x.data⟩
  else
    .error "InvalidArgumentError: reshape cannot change the number of elements"

/-- `Reshape.call` (layers.py lines 278-279): `tf.reshape(inputs, self._shape)`
succeeds, preserving the flat data, exactly when the target shape has the same
element count as the input. -/
def reshapeCall {α : Type} (target : List ℕ) (x : Tensor α) : Except String (Tensor α) :=
  if target.prod = x.data.length then
    .ok ⟨target, x.data⟩
  else
    .error "InvalidArgumentError: reshape cannot change the number of elements"

/-- Merge with factor `n` followed by the corresponding split: a `Reshape`
layer whose target is the original shape of `x`. -/
def mergeThenSplit {α : Type} (axis : ℤ) (n : ℕ) (x : Tensor α) : Except String (Tensor α) :=
  match mergeCall axis n x with
  | .ok y => reshapeCall x.shape y
  | .error e => .error e

/-! ### List helper lemmas -/

theorem getD_mem (l : List ℕ) (j : ℕ) (h : j < l.length) : l.getD j 0 ∈ l := by
  induction l generalizing j with
  | nil => simp at h
  | cons a t ih =>
    cases j with
    | zero => simp
    | succ k =>
      have hk : k < t.length := by simpa using h
      simpa using Or.inr (ih k hk)

theorem getD_set_eq (l : List ℕ) (i v : ℕ) (h : i < l.length) :
    (l.set i v).getD i 0 = v := by
  induction l generalizing i with
  | nil => simp at h
  | cons a t ih =>
    cases i with
    | zero => rfl
    | succ k =>
      have hk : k < t.length := by simpa using h
      simpa using ih k hk

theorem getD_set_ne (l : List ℕ) (i j v : ℕ) (h : i ≠ j) :
    (l.set i v).getD j 0 = l.getD j 0 := by
  induction l generalizing i j with
  | nil => rfl
  | cons a t ih =>
    cases i with
    | zero =>
      cases j with
      | zero => exact absurd rfl h
      | succ m => rfl
    | succ k =>
      cases j with
      | zero => rfl
      | succ m =>
        have : k ≠ m := fun hc => h (by rw [hc])
        simpa using ih k m this

/-- Replacing one entry of a list multiplies the product by the new value and
divides it by the old one; stated multiplicatively to stay in `ℕ`. -/
theorem prod_set_mul (l : List ℕ) (i v : ℕ) (h : i < l.length) :
    (l.set i v).prod * l.getD i 0 = l.prod * v := by
  induction l generalizing i with
  | nil => simp at h
  | cons a t ih =>
    cases i with
    | zero =>
      simp [List.prod_cons]
      ring
    | succ k =>
      have hk : k < t.length := by simpa using h
      have hrec := ih k hk
      calc (a * (t.set k v).prod) * t.getD k 0
          = a * ((t.set k v).prod * t.getD k 0) := by ring
        _ = a * (t.prod * v) := by rw [hrec]
        _ = a * t.prod * v := by ring

/-! ### Axis-resolution arithmetic -/

theorem axisResolve_lt (axis : ℤ) (r : ℕ) (hr : 0 < r) : axisResolve axis r < r := by
  have hrz : (0 : ℤ) < (r : ℤ) := by exact_mod_cast hr
  have h1 : 0 ≤ axis % (r : ℤ) := Int.emod_nonneg _ (by omega)
  have h2 : axis % (r : ℤ) < (r : ℤ) := Int.emod_lt_of_pos _ hrz
  unfold axisResolve
  omega

/-- Resolving two consecutive axis indices against a rank of at least two
yields two distinct positions. -/
theorem axisResolve_succ_ne (axis : ℤ) (r : ℕ) (hr : 2 ≤ r) :
    axisResolve (axis + 1) r ≠ axisResolve axis r := by
  have hrz : (0 : ℤ) < (r : ℤ) := by exact_mod_cast (by omega : 0 < r)
  have h1 : 0 ≤ axis % (r : ℤ) := Int.emod_nonneg _ (by omega)
  have h2 : axis % (r : ℤ) < (r : ℤ) := Int.emod_lt_of_pos _ hrz
  have hone : (1 : ℤ) % (r : ℤ) = 1 := Int.emod_eq_of_lt (by omega) (by exact_mod_cast hr)
  have hadd : (axis + 1) % (r : ℤ) = (axis % (r : ℤ) + 1) % (r : ℤ) := by
    rw [Int.add_emod, hone]
  unfold axisResolve
  rw [hadd]
  rcases lt_or_eq_of_le (by omega : axis % (r : ℤ) + 1 ≤ (r : ℤ)) with hlt | heq
  · rw [Int.emod_eq_of_lt (by omega) hlt]
    omega
  · rw [heq, Int.emod_self]
    omega

theorem axisResolve_rank_one (axis : ℤ) : axisResolve axis 1 = 0 := by
  unfold axisResolve
  simp

/-- Resolving the last axis: both `-1` and `r - 1` resolve to position
`r - 1`. -/
theorem axisResolve_last (a : ℤ) (r : ℕ) (hr : 0 < r)
    (ha : a = -1 ∨ a = (r : ℤ) - 1) : axisResolve a r = r - 1 := by
  have hrz : (0 : ℤ) < (r : ℤ) := by exact_mod_cast hr
  have hlast : ((r : ℤ) - 1) % (r : ℤ) = (r : ℤ) - 1 :=
    Int.emod_eq_of_lt (by omega) (by omega)
  rcases ha with ha | ha
  · have hm : (-1 : ℤ) % (r : ℤ) = (r : ℤ) - 1 := by
      have := Int.add_mul_emod_self_left (a := -1) (b := (r : ℤ)) (c := 1)
      have hrw : (-1 + (r : ℤ) * 1) = (r : ℤ) - 1 := by ring
      rw [hrw] at this
      rw [← this, hlast]
    unfold axisResolve
    rw [ha, hm]
    omega
  · unfold axisResolve
    rw [ha, hlast]
    omega

/-- Resolving the axis after the last one wraps to position `0`. -/
theorem axisResolve_last_succ (a : ℤ) (r : ℕ) (hr : 0 < r)
    (ha : a = -1 ∨ a = (r : ℤ) - 1) : axisResolve (a + 1) r = 0 := by
  have hrz : (0 : ℤ) < (r : ℤ) := by exact_mod_cast hr
  rcases ha with ha | ha
  · unfold axisResolve
    rw [ha]
    simp
  · unfold axisResolve
    rw [ha]
    have : (r : ℤ) - 1 + 1 = (r : ℤ) := by ring
    rw [this, Int.emod_self]
    rfl

/-! ### Element-count behaviour of the merge target shape -/

/-- Key product identity for ranks of at least two: the merged shape's element
count, multiplied by the two original dimensions, equals the original count
multiplied by the two replacement dimensions. -/
theorem mergeShape_prod_key (s : List ℕ) (axis : ℤ) (n : ℕ) (hr : 2 ≤ s.length) :
    (mergeShape axis n s).prod *
      (s.getD (axisResolve (axis + 1) s.length) 0 * s.getD (axisResolve axis s.length) 0) =
    s.prod *
      ((s.getD (axisResolve axis s.length) 0 / n) *
        (s.getD (axisResolve (axis + 1) s.length) 0 * n)) := by
  have hr0 : 0 < s.length := by omega
  set a0 := axisResolve axis s.length with ha0
  set a1 := axisResolve (axis + 1) s.length with ha1
  have h0 : a0 < s.length := axisResolve_lt axis s.length hr0
  have h1 : a1 < s.length := axisResolve_lt (axis + 1) s.length hr0
  have hne : a1 ≠ a0 := axisResolve_succ_ne axis s.length hr
  set A := s.getD a0 0 with hA
  set B := s.getD a1 0 with hB
  have hshape : mergeShape axis n s = (s.set a0 (A / n)).set a1 (B * n) := by
    simp only [mergeShape, ha0, ha1, hA, hB]
  have h1s : a1 < (s.set a0 (A / n)).length := by
    simpa using h1
  have step1 : ((s.set a0 (A / n)).set a1 (B * n)).prod * (s.set a0 (A / n)).getD a1 0 =
      (s.set a0 (A / n)).prod * (B * n) := prod_set_mul _ a1 (B * n) h1s
  have step2 : (s.set a0 (A / n)).getD a1 0 = B := by
    rw [getD_set_ne s a0 a1 (A / n) (fun hc => hne hc.symm)]
  have step3 : (s.set a0 (A / n)).prod * A = s.prod * (A / n) := prod_set_mul s a0 (A / n) h0
  rw [step2] at step1
  rw [hshape]
  calc ((s.set a0 (A / n)).set a1 (B * n)).prod * (B * A)
      = (((s.set a0 (A / n)).set a1 (B * n)).prod * B) * A := by ring
    _ = ((s.set a0 (A / n)).prod * (B * n)) * A := by
        rw [show ((s.set a0 (A / n)).set a1 (B * n)).prod * B =
            (s.set a0 (A / n)).prod * (B * n) from step1]
    _ = ((s.set a0 (A / n)).prod * A) * (B * n) := by ring
    _ = (s.prod * (A / n)) * (B * n) := by rw [step3]
    _ = s.prod * ((A / n) * (B * n)) := by ring

/-- When the merge axis dimension is divisible by the factor, the target shape
of `Merge` has exactly the element count of the input (rank at least two). -/
theorem mergeShape_prod_eq (s : List ℕ) (axis : ℤ) (n : ℕ) (hr : 2 ≤ s.length)
    (hdvd : n ∣ s.getD (axisResolve axis s.length) 0) :
    (mergeShape axis n s).prod = s.prod := by
  have hr0 : 0 < s.length := by omega
  set a0 := axisResolve axis s.length with ha0
  set a1 := axisResolve (axis + 1) s.length with ha1
  have h0 : a0 < s.length := axisResolve_lt axis s.length hr0
  have h1 : a1 < s.length := axisResolve_lt (axis + 1) s.length hr0
  have hne : a1 ≠ a0 := axisResolve_succ_ne axis s.length hr
  set A := s.getD a0 0 with hA
  set B := s.getD a1 0 with hB
  have hshape : mergeShape axis n s = (s.set a0 (A / n)).set a1 (B * n) := by
    simp only [mergeShape, ← ha0, ← ha1, ← hA, ← hB]
  rcases Nat.eq_zero_or_pos A with hA0 | hApos
  · -- a zero dimension on the merge axis: both element counts are zero
    have hsz : s.prod = 0 := List.prod_eq_zero (hA0 ▸ hA ▸ getD_mem s a0 h0)
    have hmem : (0 : ℕ) ∈ (s.set a0 (A / n)).set a1 (B * n) := by
      have hlen : a0 < ((s.set a0 (A / n)).set a1 (B * n)).length := by simpa using h0
      have hval : ((s.set a0 (A / n)).set a1 (B * n)).getD a0 0 = 0 := by
        rw [getD_set_ne _ a1 a0 _ hne, getD_set_eq s a0 _ h0, hA0]
        simp
      exact hval ▸ getD_mem _ a0 hlen
    rw [hshape, List.prod_eq_zero hmem, hsz]
  rcases Nat.eq_zero_or_pos B with hB0 | hBpos
  · -- a zero dimension on the wrapped axis: both element counts are zero
    have hsz : s.prod = 0 := List.prod_eq_zero (hB0 ▸ hB ▸ getD_mem s a1 h1)
    have hmem : (0 : ℕ) ∈ (s.set a0 (A / n)).set a1 (B * n) := by
      have hlen : a1 < ((s.set a0 (A / n)).set a1 (B * n)).length := by simpa using h1
      have hval : ((s.set a0 (A / n)).set a1 (B * n)).getD a1 0 = 0 := by
        rw [getD_set_eq _ a1 _ (by simpa using h1), hB0, Nat.zero_mul]
      exact hval ▸ getD_mem _ a1 hlen
    rw [hshape, List.prod_eq_zero hmem, hsz]
  · have key := mergeShape_prod_key s axis n hr
    rw [← ha0, ← ha1, ← hA, ← hB] at key
    have hAB : (A / n) * (B * n) = B * A := by
      calc (A / n) * (B * n) = ((A / n) * n) * B := by ring
        _ = A * B := by rw [Nat.div_mul_cancel hdvd]
        _ = B * A := by ring
    rw [hAB] at key
    have hpos : 0 < B * A := Nat.mul_pos hBpos hApos
    exact Nat.eq_of_mul_eq_mul_right hpos key

/-- When the merge axis dimension is not divisible by the factor and no
dimension is zero, the target shape of `Merge` has a different element count
(rank at least two). -/
theorem mergeShape_prod_ne (s : List ℕ) (axis : ℤ) (n : ℕ) (hr : 2 ≤ s.length)
    (hpos : 0 < s.prod) (hndvd : ¬ n ∣ s.getD (axisResolve axis s.length) 0) :
    (mergeShape axis n s).prod ≠ s.prod := by
  have hr0 : 0 < s.length := by omega
  set a0 := axisResolve axis s.length with ha0
  set a1 := axisResolve (axis + 1) s.length with ha1
  have h0 : a0 < s.length := axisResolve_lt axis s.length hr0
  have h1 : a1 < s.length := axisResolve_lt (axis + 1) s.length hr0
  set A := s.getD a0 0 with hA
  set B := s.getD a1 0 with hB
  have hApos : 0 < A := by
    rcases Nat.eq_zero_or_pos A with h | h
    · exact absurd (List.prod_eq_zero (h ▸ hA ▸ getD_mem s a0 h0)) (by omega)
    · exact h
  have hBpos : 0 < B := by
    rcases Nat.eq_zero_or_pos B with h | h
    · exact absurd (List.prod_eq_zero (h ▸ hB ▸ getD_mem s a1 h1)) (by omega)
    · exact h
  intro hcontra
  have key := mergeShape_prod_key s axis n hr
  rw [← ha0, ← ha1, ← hA, ← hB, hcontra] at key
  have hcancel : B * A = (A / n) * (B * n) :=
    Nat.eq_of_mul_eq_mul_left hpos key
  have hAn : A = (A / n) * n := by
    have : B * A = ((A / n) * n) * B := by rw [hcancel]; ring
    have h2 : A * B = ((A / n) * n) * B := by rw [← this]; ring
    exact Nat.eq_of_mul_eq_mul_right hBpos h2
  have hdvd2 : n ∣ A := by
    refine ⟨A / n, ?_⟩
    conv_lhs => rw [hAn]
    ring
  exact hndvd hdvd2

/-- For a rank-one tensor the merge axis and its successor coincide, so the
second shape write overwrites the first and the target dimension is the
original one multiplied by the factor. -/
theorem mergeShape_rank_one (s : List ℕ) (axis : ℤ) (n : ℕ) (h : s.length = 1) :
    mergeShape axis n s = s.set 0 (s.getD 0 0 * n) := by
  simp only [mergeShape, h, axisResolve_rank_one, List.set_set]

/-- Rank-one version of the element-count mismatch: with a positive element
count and a non-dividing factor, the target count differs. -/
theorem mergeShape_prod_ne_rank_one (s : List ℕ) (axis : ℤ) (n : ℕ)
    (hr : s.length = 1) (hpos : 0 < s.prod)
    (hndvd : ¬ n ∣ s.getD (axisResolve axis s.length) 0) :
    (mergeShape axis n s).prod ≠ s.prod := by
  have h0 : (0 : ℕ) < s.length := by omega
  set A := s.getD 0 0 with hA
  have hApos : 0 < A := by
    rcases Nat.eq_zero_or_pos A with h | h
    · exact absurd (List.prod_eq_zero (h ▸ hA ▸ getD_mem s 0 h0)) (by omega)
    · exact h
  have hstep : (s.set 0 (A * n)).prod * A = s.prod * (A * n) := prod_set_mul s 0 (A * n) h0
  intro hcontra
  rw [mergeShape_rank_one s axis n hr, ← hA] at hcontra
  rw [hcontra] at hstep
  have hAAn : A = A * n := Nat.eq_of_mul_eq_mul_left hpos hstep
  have hn1 : n = 1 := by
    rcases Nat.eq_zero_or_pos n with h | h
    · subst h
      simp at hAAn
      omega
    · nlinarith
  rw [hr, axisResolve_rank_one] at hndvd
  exact hndvd (hn1 ▸ one_dvd _)

/-! ### Claims C1, C7, C10: the reshaping layers -/

/-- Claim C1, amended: for every tensor of rank at least two and every factor
`n ≥ 1` dividing the merge-axis dimension, applying `Merge` with factor `n`
and then the corresponding `Reshape` split back to the original shape returns
the tensor exactly, element for element.  (The amendment excludes rank-one
tensors, where the two target axes coincide and `Merge` itself fails, and the
degenerate factor `n = 0`, where Python raises a division error.) -/
theorem merge_reshape_roundtrip {α : Type} (x : Tensor α) (axis : ℤ) (n : ℕ)
    (hw : x.data.length = x.shape.prod) (hr : 2 ≤ x.shape.length) (hn : 1 ≤ n)
    (hdvd : n ∣ x.shape.getD (axisResolve axis x.shape.length) 0) :
    mergeThenSplit axis n x = .ok x := by
  have h0 : ¬ x.shape.length = 0 := by omega
  have hnz : ¬ n = 0 := by omega
  have hp : (mergeShape axis n x.shape).prod = x.shape.prod :=
    mergeShape_prod_eq _ _ _ hr hdvd
  have hcond : (mergeShape axis n x.shape).prod = x.data.length := by rw [hp, hw]
  have hmc : mergeCall axis n x = .ok ⟨mergeShape axis n x.shape, x.data⟩ := by
    unfold mergeCall
    rw [if_neg h0, if_neg hnz, if_pos hcond]
  have hrs : reshapeCall x.shape (⟨mergeShape axis n x.shape, x.data⟩ : Tensor α) =
      .ok x := by
    show (if x.shape.prod = x.data.length then Except.ok (⟨x.shape, x.data⟩ : Tensor α)
      else Except.error "InvalidArgumentError: reshape cannot change the number of elements") =
      .ok x
    rw [if_pos hw.symm]
  unfold mergeThenSplit
  rw [hmc]
  exact hrs

/-- Claim C1, counterexample: the rank-one tensor of shape `[2]` has its merge
axis (the only axis) divisible by `n = 2`, yet the merge/split round trip does
not return it — `Merge` itself fails, because the wrapped neighbour axis is
the merge axis itself and the recomputed shape `[4]` no longer matches the
element count. -/
theorem merge_roundtrip_rank_one_cex :
    (2 ∣ (⟨[2], [0, 1]⟩ : Tensor ℤ).shape.getD (axisResolve 0 1) 0) ∧
    mergeThenSplit 0 2 (⟨[2], [0, 1]⟩ : Tensor ℤ) ≠ .ok ⟨[2], [0, 1]⟩ := by
  refine ⟨by decide, fun h => ?_⟩
  have heval : mergeThenSplit 0 2 (⟨[2], [0, 1]⟩ : Tensor ℤ) =
      .error "InvalidArgumentError: reshape cannot change the number of elements" := rfl
  rw [heval] at h
  exact Except.noConfusion h

/-- Claim C1, witness: the round trip on a concrete rank-two tensor of shape
`[4, 3]` with factor `2`. -/
theorem merge_reshape_roundtrip_witness :
    (2 ≤ (⟨[4, 3], [0, 1, 2, 3, 4, 5, 6, 7, 8, 9, 10, 11]⟩ : Tensor ℤ).shape.length ∧
      2 ∣ (⟨[4, 3], [0, 1, 2, 3, 4, 5, 6, 7, 8, 9, 10, 11]⟩ : Tensor ℤ).shape.getD
        (axisResolve 0 2) 0) ∧
    mergeThenSplit 0 2 (⟨[4, 3], [0, 1, 2, 3, 4, 5, 6, 7, 8, 9, 10, 11]⟩ : Tensor ℤ) =
      .ok ⟨[4, 3], [0, 1, 2, 3, 4, 5, 6, 7, 8, 9, 10, 11]⟩ :=
  ⟨⟨by decide, by decide⟩,
    merge_reshape_roundtrip _ 0 2 (by rfl) (by decide) (by decide) (by decide)⟩

/-- Claim C7, amended: for every input with a positive element count whose
merge-axis dimension is not divisible by `n`, `Merge` fails with an error (the
reshape element-count check, or a division error for `n = 0`); the data is
never silently truncated or padded.  (The amendment restricts to inputs with
at least one element: a tensor with a zero dimension has zero elements, the
element-count check is then vacuously satisfied, and the merge axis is
silently floor-divided.) -/
theorem merge_indivisible_error {α : Type} (x : Tensor α) (axis : ℤ) (n : ℕ)
    (hw : x.data.length = x.shape.prod) (hpos : 0 < x.shape.prod)
    (hndvd : ¬ n ∣ x.shape.getD (axisResolve axis x.shape.length) 0) :
    ∃ msg, mergeCall axis n x = .error msg := by
  unfold mergeCall
  by_cases h0 : x.shape.length = 0
  · exact ⟨_, by rw [if_pos h0]⟩
  by_cases hnz : n = 0
  · exact ⟨_, by rw [if_neg h0, if_pos hnz]⟩
  have hne : ¬ (mergeShape axis n x.shape).prod = x.data.length := by
    rw [hw]
    rcases Nat.lt_or_ge x.shape.length 2 with hlt | hge
    · have h1 : x.shape.length = 1 := by omega
      exact mergeShape_prod_ne_rank_one _ axis n h1 hpos hndvd
    · exact mergeShape_prod_ne _ axis n hge hpos hndvd
  exact ⟨_, by rw [if_neg h0, if_neg hnz, if_neg hne]⟩

/-- Claim C7, counterexample: the empty tensor of shape `[3, 0]` has merge-axis
dimension `3`, not divisible by `2`, yet `Merge` succeeds — returning shape
`[1, 0]`, the merge axis silently floored from `3` to `1` — because both
element counts are zero. -/
theorem merge_empty_tensor_cex :
    ¬ (2 ∣ (⟨[3, 0], ([] : List ℤ)⟩ : Tensor ℤ).shape.getD (axisResolve 0 2) 0) ∧
    mergeCall 0 2 (⟨[3, 0], ([] : List ℤ)⟩ : Tensor ℤ) = .ok ⟨[1, 0], []⟩ :=
  ⟨by decide, rfl⟩

/-- Claim C7, witness: merging a concrete tensor of shape `[3, 2]` (six
elements, merge axis `3` not divisible by `2`) fails with an error. -/
theorem merge_indivisible_error_witness :
    (0 < (⟨[3, 2], [0, 1, 2, 3, 4, 5]⟩ : Tensor ℤ).shape.prod ∧
      ¬ 2 ∣ (⟨[3, 2], [0, 1, 2, 3, 4, 5]⟩ : Tensor ℤ).shape.getD (axisResolve 0 2) 0) ∧
    ∃ msg, mergeCall 0 2 (⟨[3, 2], [0, 1, 2, 3, 4, 5]⟩ : Tensor ℤ) = .error msg :=
  ⟨⟨by decide, by decide⟩,
    merge_indivisible_error _ 0 2 (by rfl) (by decide) (by decide)⟩

/-- Claim C10: when `Merge` is constructed with the last axis as merge axis
(`axis = -1` or `axis = rank - 1`), the neighbouring axis receiving the factor
wraps around modulo the rank to the first axis: any successful output has its
leading dimension multiplied by `n`, and (for rank at least two) its last
dimension floor-divided by `n`. -/
theorem merge_last_axis_wrap {α : Type} (x : Tensor α) (a : ℤ) (n : ℕ) (y : Tensor α)
    (hr : 1 ≤ x.shape.length)
    (ha : a = -1 ∨ a = (x.shape.length : ℤ) - 1)
    (hok : mergeCall a n x = .ok y) :
    y.shape.getD 0 0 = x.shape.getD 0 0 * n ∧
    (2 ≤ x.shape.length →
      y.shape.getD (x.shape.length - 1) 0 = x.shape.getD (x.shape.length - 1) 0 / n) := by
  unfold mergeCall at hok
  rw [if_neg (by omega : ¬ x.shape.length = 0)] at hok
  by_cases hnz : n = 0
  · rw [if_pos hnz] at hok
    exact Except.noConfusion hok
  rw [if_neg hnz] at hok
  by_cases hcond : (mergeShape a n x.shape).prod = x.data.length
  · rw [if_pos hcond] at hok
    injection hok with hy
    subst hy
    have hlast : axisResolve a x.shape.length = x.shape.length - 1 :=
      axisResolve_last a x.shape.length (by omega) ha
    have hnext : axisResolve (a + 1) x.shape.length = 0 :=
      axisResolve_last_succ a x.shape.length (by omega) ha
    simp only [mergeShape, hlast, hnext]
    constructor
    · exact getD_set_eq _ 0 _ (by simp; omega)
    · intro hge2
      rw [getD_set_ne _ 0 (x.shape.length - 1) _ (by omega),
        getD_set_eq _ _ _ (by omega)]
  · rw [if_neg hcond] at hok
    exact Except.noConfusion hok

/-- Claim C10, witness: merging the shape `[2, 3]` tensor along `axis = -1`
with factor `3` yields shape `[6, 1]` — the leading dimension `2` is
multiplied by `3`. -/
theorem merge_last_axis_wrap_witness :
    (mergeCall (-1) 3 (⟨[2, 3], [0, 1, 2, 3, 4, 5]⟩ : Tensor ℤ) =
      .ok ⟨[6, 1], [0, 1, 2, 3, 4, 5]⟩) ∧
    (⟨[6, 1], [0, 1, 2, 3, 4, 5]⟩ : Tensor ℤ).shape.getD 0 0 =
      (⟨[2, 3], [0, 1, 2, 3, 4, 5]⟩ : Tensor ℤ).shape.getD 0 0 * 3 :=
  ⟨rfl, (merge_last_axis_wrap (⟨[2, 3], [0, 1, 2, 3, 4, 5]⟩ : Tensor ℤ) (-1) 3
    (⟨[6, 1], [0, 1, 2, 3, 4, 5]⟩ : Tensor ℤ) (by decide) (Or.inl rfl) rfl).1⟩

/-! ### Claims C2 and C3: the Attention layer

`Attention.call` (layers.py lines 157-175) with kernels of shape
`[D, head_dim]`.  The returned probability matrix is multiplied by the value
**kernel** itself (`tf.matmul(__w, self._value)`, line 175), which only
typechecks when the feature dimension `D` equals the time dimension `T`; the
embedding therefore fixes `D = T`.  The body is modelled past the transpose
construction of lines 159-161, which in Python 3 raises a `TypeError` before
any tensor computation (a `range` object does not support item assignment);
the intended transpose of the last two axes is used, as the matmul of line 167
requires. -/

/-- Matrix product of two tensors given as functions, `tf.matmul`. -/
noncomputable def matmulF {a b c : ℕ} (M : Fin a → Fin b → ℝ) (N : Fin b → Fin c → ℝ) :
    Fin a → Fin c → ℝ :=
  fun i k => ∑ j, M i j * N j k

/-- Scaled dot-product scores (layers.py lines 163-167): the key projection
times the transposed query projection, divided by the square root of the head
dimension.  Note the order: the code computes `K Qᵀ`, so entry `(i, j)` pairs
the key at position `i` with the query at position `j`. -/
noncomputable def attnScores {T H : ℕ} (K Q : Fin T → Fin H → ℝ)
    (x : Fin T → Fin T → ℝ) : Fin T → Fin T → ℝ :=
  fun i j => (∑ h2, matmulF x K i h2 * matmulF x Q j h2) / Real.sqrt (H : ℝ)

/-- Masked softmax probabilities (layers.py lines 169-173).  The additive mask
`__u` is `-inf` strictly above the diagonal and `0` elsewhere, and `__l` keeps
the lower-triangular part of the scores; `tf.nn.softmax` of `__u + __l` along
the last axis therefore gives weight `exp(score) / Σ_{j ≤ i} exp(score)` at or
below the diagonal and exactly `0` (the softmax of `-inf`) above it. -/
noncomputable def attnProbs {T H : ℕ} (K Q : Fin T → Fin H → ℝ)
    (x : Fin T → Fin T → ℝ) : Fin T → Fin T → ℝ :=
  fun i j =>
    if j ≤ i then
      Real.exp (attnScores K Q x i j) /
        ∑ j2 ∈ Finset.univ.filter (fun j2 => j2 ≤ i), Real.exp (attnScores K Q x i j2)
    else 0

/-- The value returned by `Attention.call` (layers.py line 175): the
probability matrix multiplied by the value kernel `self._value` directly —
the inputs are never projected through the value kernel. -/
noncomputable def attentionCall {T H : ℕ} (K Q V : Fin T → Fin H → ℝ)
    (x : Fin T → Fin T → ℝ) : Fin T → Fin H → ℝ :=
  fun i d => ∑ j, attnProbs K Q x i j * V j d

/-- Modelled from the spec, for comparison with `attentionCall`: the
probability-weighted sum of the value *vectors*, i.e. of the inputs projected
through the value kernel, as section 4.3 of the specification describes. -/
noncomputable def attentionSpecCall {T H : ℕ} (K Q V : Fin T → Fin H → ℝ)
    (x : Fin T → Fin T → ℝ) : Fin T → Fin H → ℝ :=
  fun i d => ∑ j, attnProbs K Q x i j * matmulF x V j d

noncomputable def xC2 : Fin 1 → Fin 1 → ℝ := fun _ _ => 2

noncomputable def kC2 : Fin 1 → Fin 1 → ℝ := fun _ _ => 0

noncomputable def vC2 : Fin 1 → Fin 1 → ℝ := fun _ _ => 3

/-- Claim C2: evaluation of the attention layer at a concrete input of length
`T = 1` with feature width `1`, input value `2` and value kernel `3`.  The
code returns the value kernel entry `3` (the probability is `1`), whereas the
claimed output — the probability-weighted sum of the inputs projected through
the value kernel — is `2 * 3 = 6`; the code's output omits the value
projection of the inputs. -/
theorem attention_value_kernel_eval :
    attentionCall kC2 kC2 vC2 xC2 0 0 = 3 ∧
    attentionSpecCall kC2 kC2 vC2 xC2 0 0 = 6 ∧
    attentionCall kC2 kC2 vC2 xC2 0 0 ≠ attentionSpecCall kC2 kC2 vC2 xC2 0 0 := by
  have hfilter : Finset.univ.filter (fun j2 : Fin 1 => j2 ≤ 0) = Finset.univ := by
    decide
  have hprob : attnProbs kC2 kC2 xC2 0 0 = 1 := by
    simp [attnProbs, hfilter, Fin.sum_univ_one, div_self (Real.exp_ne_zero _)]
  have hcall : attentionCall kC2 kC2 vC2 xC2 0 0 = 3 := by
    simp [attentionCall, Fin.sum_univ_one, hprob, vC2]
  have hspec : attentionSpecCall kC2 kC2 vC2 xC2 0 0 = 6 := by
    simp [attentionSpecCall, Fin.sum_univ_one, hprob, matmulF, vC2, xC2]
    norm_num
  exact ⟨hcall, hspec, by rw [hcall, hspec]; norm_num⟩

/-- Claim C3: causal masking.  If two inputs agree at every position `j ≤ i`
(i.e. they differ only at future positions `j > i`), the attention output at
position `i` is identical for both, and every masked (future) entry of the
probability matrix is exactly zero. -/
theorem attention_causal_mask {T H : ℕ} (K Q V : Fin T → Fin H → ℝ)
    (x x2 : Fin T → Fin T → ℝ) (i : Fin T)
    (hagree : ∀ j, j ≤ i → ∀ d, x j d = x2 j d) :
    (∀ d, attentionCall K Q V x i d = attentionCall K Q V x2 i d) ∧
    (∀ j, i < j → attnProbs K Q x i j = 0) := by
  have hK : ∀ j, j ≤ i → ∀ h2, matmulF x K j h2 = matmulF x2 K j h2 := by
    intro j hj h2
    unfold matmulF
    exact Finset.sum_congr rfl (fun d _ => by rw [hagree j hj d])
  have hQ : ∀ j, j ≤ i → ∀ h2, matmulF x Q j h2 = matmulF x2 Q j h2 := by
    intro j hj h2
    unfold matmulF
    exact Finset.sum_congr rfl (fun d _ => by rw [hagree j hj d])
  have hscore : ∀ j, j ≤ i → attnScores K Q x i j = attnScores K Q x2 i j := by
    intro j hj
    unfold attnScores
    congr 1
    exact Finset.sum_congr rfl (fun h2 _ => by rw [hK i le_rfl h2, hQ j hj h2])
  have hprobs : ∀ j, attnProbs K Q x i j = attnProbs K Q x2 i j := by
    intro j
    unfold attnProbs
    by_cases hj : j ≤ i
    · rw [if_pos hj, if_pos hj, hscore j hj]
      congr 1
      exact Finset.sum_congr rfl (fun j2 hj2 => by
        rw [hscore j2 (Finset.mem_filter.mp hj2).2])
    · rw [if_neg hj, if_neg hj]
  refine ⟨fun d => ?_, fun j hij => ?_⟩
  · unfold attentionCall
    exact Finset.sum_congr rfl (fun j _ => by rw [hprobs j])
  · unfold attnProbs
    rw [if_neg (not_le.mpr hij)]

noncomputable def xC3 : Fin 2 → Fin 2 → ℝ := fun _ _ => 0

noncomputable def xC3b : Fin 2 → Fin 2 → ℝ := fun j _ => if j = 0 then 0 else 1

noncomputable def wC3 : Fin 2 → Fin 1 → ℝ := fun _ _ => 1

/-- Claim C3, witness: two concrete length-two inputs that agree at position
`0` and differ at position `1` produce the same attention output at position
`0`. -/
theorem attention_causal_mask_witness :
    (∀ j : Fin 2, j ≤ (0 : Fin 2) → ∀ d : Fin 2, xC3 j d = xC3b j d) ∧
    (∀ d : Fin 1, attentionCall wC3 wC3 wC3 xC3 0 d = attentionCall wC3 wC3 wC3 xC3b 0 d) := by
  have hagree : ∀ j : Fin 2, j ≤ (0 : Fin 2) → ∀ d : Fin 2, xC3 j d = xC3b j d := by
    intro j hj d
    have hj0 : j = 0 := Fin.le_zero_iff.mp hj
    subst hj0
    simp [xC3, xC3b]
  exact ⟨hagree, (attention_causal_mask wC3 wC3 wC3 xC3 xC3b 0 hagree).1⟩

/-! ### Claims C4 and C9: BatchNormalization running statistics

`BatchNormalization.call` (layers.py lines 40-51) on a rank-two input with the
default batch axis `0`: the per-feature state holds the running mean, running
standard deviation, gain and bias, and a call in training mode first reassigns
the running statistics by exponential moving average and then normalizes with
the *updated* values. -/

/-- Per-feature mutable state of a built normalization layer. -/
structure NormState (F : ℕ) where
  mean : Fin F → ℝ
  stddev : Fin F → ℝ
  gain : Fin F → ℝ
  bias : Fin F → ℝ

/-- Per-feature batch mean, `tf.math.reduce_mean(inputs, axis=0)`. -/
noncomputable def batchMean {B F : ℕ} (x : Fin B → Fin F → ℝ) : Fin F → ℝ :=
  fun j => (∑ i, x i j) / B

/-- Per-feature batch standard deviation, `tf.math.reduce_std(inputs, axis=0)`:
the square root of the mean squared deviation from the batch mean. -/
noncomputable def batchStddev {B F : ℕ} (x : Fin B → Fin F → ℝ) : Fin F → ℝ :=
  fun j => Real.sqrt ((∑ i, (x i j - batchMean x j) ^ 2) / B)

/-- `BatchNormalization.call` (layers.py lines 40-51): in training mode the
running statistics are reassigned as `momentum * running + (1 - momentum) *
batch_statistic` before normalizing; the output is always
`gain * (input - mean) / (stddev + epsilon) + bias` with the current state. -/
noncomputable def batchNormCall {B F : ℕ} (momentum epsilon : ℝ) (s : NormState F)
    (x : Fin B → Fin F → ℝ) (training : Bool) :
    (Fin B → Fin F → ℝ) × NormState F :=
  let s2 := if training then
      { s with
        mean := fun j => momentum * s.mean j + (1 - momentum) * batchMean x j,
        stddev := fun j => momentum * s.stddev j + (1 - momentum) * batchStddev x j }
    else s
  (fun i j => s2.gain j * ((x i j - s2.mean j) / (s2.stddev j + epsilon)) + s2.bias j, s2)

/-- The Python signature `def call(self, inputs, training: bool=True, ...)`
(layers.py line 40): a call that does not pass the flag binds it to `True`. -/
def normTrainingDefault : Bool := true

/-- A call of `BatchNormalization` without an explicit training flag. -/
noncomputable def batchNormCallDefault {B F : ℕ} (momentum epsilon : ℝ)
    (s : NormState F) (x : Fin B → Fin F → ℝ) :
    (Fin B → Fin F → ℝ) × NormState F :=
  batchNormCall momentum epsilon s x normTrainingDefault

/-- Claim C4: calling the layer with `training=False` leaves the running
statistics (the whole state) unchanged, so a second inference call on the same
input returns the identical output; and the running mean and standard
deviation are reassigned (by exponential moving average) exactly in training
mode. -/
theorem batchnorm_inference_frame {B F : ℕ} (momentum epsilon : ℝ) (s : NormState F)
    (x : Fin B → Fin F → ℝ) :
    (batchNormCall momentum epsilon s x false).2 = s ∧
    (batchNormCall momentum epsilon ((batchNormCall momentum epsilon s x false).2) x false).1 =
      (batchNormCall momentum epsilon s x false).1 ∧
    (batchNormCall momentum epsilon s x true).2.mean =
      (fun j => momentum * s.mean j + (1 - momentum) * batchMean x j) ∧
    (batchNormCall momentum epsilon s x true).2.stddev =
      (fun j => momentum * s.stddev j + (1 - momentum) * batchStddev x j) :=
  ⟨rfl, rfl, rfl, rfl⟩

/-- Claim C9: the training flag defaults to `True`, so a call without the flag
reassigns the running mean and running standard deviation by the moving
average formula (and leaves gain and bias alone), while an explicit
`training=False` call leaves the whole state unchanged. -/
theorem batchnorm_training_default {B F : ℕ} (momentum epsilon : ℝ) (s : NormState F)
    (x : Fin B → Fin F → ℝ) :
    normTrainingDefault = true ∧
    (batchNormCallDefault momentum epsilon s x).2.mean =
      (fun j => momentum * s.mean j + (1 - momentum) * batchMean x j) ∧
    (batchNormCallDefault momentum epsilon s x).2.stddev =
      (fun j => momentum * s.stddev j + (1 - momentum) * batchStddev x j) ∧
    (batchNormCallDefault momentum epsilon s x).2.gain = s.gain ∧
    (batchNormCallDefault momentum epsilon s x).2.bias = s.bias ∧
    (batchNormCall momentum epsilon s x false).2 = s :=
  ⟨rfl, rfl, rfl, rfl, rfl, rfl⟩

/-! ### Claim C5: the LayerNormalization constructor

`LayerNormalization.__init__` (layers.py line 61) runs
`super(BatchNormalization, self).__init__(**kwargs)`, but `LayerNormalization`
is declared as a subclass of `tf.keras.layers.Layer`, not of
`BatchNormalization` (line 53).  Python's two-argument `super(C, obj)`
requires `isinstance(obj, C)`; the construction of any `LayerNormalization`
therefore raises a `TypeError` before a single field is assigned.  The class
hierarchy and Python's check are modelled explicitly. -/

/-- The three classes involved, with their declared single inheritance. -/
inductive PyClass
  | layer
  | batchNormalization
  | layerNormalization
deriving DecidableEq

/-- Declared base class: both normalization classes extend the framework
`Layer` class directly (layers.py lines 8 and 53). -/
def pyBase : PyClass → Option PyClass
  | .layer => none
  | .batchNormalization => some .layer
  | .layerNormalization => some .layer

/-- Subclass test for this (depth-one) hierarchy, as `isinstance` uses it. -/
def pyIsSubclass (c d : PyClass) : Bool :=
  c = d || pyBase c = some d

/-- Constructor arguments of the normalization layers. -/
structure NormConfig where
  axis : ℤ
  momentum : ℝ
  epsilon : ℝ

/-- `BatchNormalization.__init__` (layers.py lines 9-23): its
`super(BatchNormalization, self)` call is legal because `self` is an instance
of `BatchNormalization`, and the configuration is stored. -/
def batchNormalizationInit (a : ℤ) (m e : ℝ) : Except String NormConfig :=
  if pyIsSubclass .batchNormalization .batchNormalization then .ok ⟨a, m, e⟩
  else .error "TypeError: super requires obj to be an instance or subtype of type"

/-- `LayerNormalization.__init__` (layers.py lines 54-68): the
`super(BatchNormalization, self)` call on line 61 checks that the instance's
class is a subtype of `BatchNormalization`, which `LayerNormalization` is
not. -/
def layerNormalizationInit (a : ℤ) (m e : ℝ) : Except String NormConfig :=
  if pyIsSubclass .layerNormalization .batchNormalization then .ok ⟨a, m, e⟩
  else .error "TypeError: super requires obj to be an instance or subtype of type"

/-- Claim C5: constructing a `LayerNormalization` always fails with a
`TypeError` — for every configuration — while the same configuration does
construct a `BatchNormalization`; the layer variant is never constructible, so
its (textually identical, axis apart) build and call bodies are unreachable. -/
theorem layernorm_init_type_error (a : ℤ) (m e : ℝ) :
    layerNormalizationInit a m e =
      .error "TypeError: super requires obj to be an instance or subtype of type" ∧
    batchNormalizationInit a m e = .ok ⟨a, m, e⟩ :=
  ⟨rfl, rfl⟩

/-! ### Claim C6: the Embedding layer

`Embedding.call` (layers.py lines 205-217): the content embedding is the
one-hot expansion of the integer indices multiplied by the content kernel.
The positional branch (lines 210-215), taken exactly when the layer was
constructed with `add_position=True`, evaluates
`(__values - tf.math.reduce_mean(__diag)) / tf.math.reduce_std(__diag)` on
line 212 — but no name `__values` is ever defined, so Python raises a
`NameError` and the branch can never produce a value. -/

/-- `tf.one_hot`: a length-`U` vector that is `1` at the index and `0`
elsewhere (and all-zero for an out-of-range index). -/
def oneHot (U : ℕ) (idx : ℕ) : Fin U → ℚ :=
  fun u => if idx = (u : ℕ) then 1 else 0

/-- Content embedding (layers.py lines 207-208): one-hot expansion followed by
the content-kernel projection. -/
def embeddingContent {U E T : ℕ} (kernel : Fin U → Fin E → ℚ) (idx : Fin T → ℕ) :
    Fin T → Fin E → ℚ :=
  fun t e => ∑ u, oneHot U (idx t) u * kernel u e

/-- `Embedding.call` (layers.py lines 205-217).  With `add_position=False` the
content embedding is returned; with `add_position=True` the call reaches line
212 and raises `NameError` (the name `__values`, mangled to
`_Embedding__values`, is undefined), so no positional term is ever added. -/
def embeddingCall {U E T : ℕ} (addPosition : Bool) (kernel : Fin U → Fin E → ℚ)
    (idx : Fin T → ℕ) : Except String (Fin T → Fin E → ℚ) :=
  if addPosition then
    .error "NameError: name _Embedding__values is not defined"
  else
    .ok (embeddingContent kernel idx)

def kernelC6 : Fin 2 → Fin 1 → ℚ := fun u _ => if u = 0 then 5 else 7

def idxC6 : Fin 1 → ℕ := fun _ => 1

/-- Claim C6: calling a built `Embedding` with `add_position=True` on a
concrete index input raises a `NameError` instead of returning the content
embedding plus a positional term; the same call with `add_position=False`
returns the content embedding (here, row `1` of the kernel, value `7`). -/
theorem embedding_position_name_error :
    embeddingCall true kernelC6 idxC6 =
      .error "NameError: name _Embedding__values is not defined" ∧
    embeddingCall false kernelC6 idxC6 = .ok (embeddingContent kernelC6 idxC6) ∧
    embeddingContent kernelC6 idxC6 0 0 = 7 := by
  refine ⟨rfl, rfl, ?_⟩
  simp [embeddingContent, oneHot, kernelC6, idxC6, Fin.sum_univ_two]

/-! ### Claim C8: determinism of the Encoder

The `Encoder` model (tokun.4x4.keras.py lines 50-59) is a sequential stack of
an embedding projection and `depth` tokenize blocks.  Modelled from the spec:
`TokenizeBlock` lives in `mlable/models/tokun/layers.py`, which is not part of
the available sources; per specification sections 4.6 and 4.9 a block is a
`Merge` reshape folding `G` consecutive embedding vectors into one wide vector
followed by a dense projection (the optional attention pass is disabled in the
instantiated model, `attention=False`, line 85).  All weights are read-only
during a forward pass — no layer on the encoder path has a training-mode
branch — which the embedding makes explicit by returning the weights
alongside the output. -/

/-- Elementwise sum of two coefficient lists (shorter one padded). -/
def vecAdd : List ℚ → List ℚ → List ℚ
  | [], ys => ys
  | x :: xs, [] => x :: xs
  | x :: xs, y :: ys => (x + y) :: vecAdd xs ys

/-- Dense projection of one row vector by a kernel given as its list of rows:
`row · kernel`, the sum of the kernel rows scaled by the row's entries. -/
def denseApply (kernel : List (List ℚ)) (row : List ℚ) : List ℚ :=
  (List.zipWith (fun xi krow => krow.map (fun w => xi * w)) row kernel).foldr vecAdd []

/-- The `Merge` step of a tokenize block at sequence level: concatenate each
group of `g` consecutive embedding vectors into one vector of `g` times the
width. -/
def chunkJoin (g : ℕ) : List (List ℚ) → List (List ℚ)
  | [] => []
  | x :: xs => (x :: xs.take (g - 1)).flatten :: chunkJoin g (xs.drop (g - 1))
termination_by l => l.length
decreasing_by simp [List.length_drop]; omega

/-- Modelled from the spec: `TokenizeBlock` (specification section 4.6; the
source file `mlable/models/tokun/layers.py` is not available) — a `Merge`
fold of `g` consecutive embeddings followed by a dense projection, attention
disabled as in the instantiated model. -/
def tokenizeBlock (g : ℕ) (kernel : List (List ℚ)) (xs : List (List ℚ)) :
    List (List ℚ) :=
  (chunkJoin g xs).map (denseApply kernel)

/-- The weights owned by the Encoder: the embedding kernel and one dense
kernel per tokenize block. -/
structure EncoderWeights where
  embedKernel : List (List ℚ)
  blockKernels : List (List (List ℚ))

/-- Modelled from the spec: the Encoder forward pass (tokun.4x4.keras.py lines
50-59 together with specification section 4.9) — the embedding projection
followed by the tokenize blocks in order. -/
def encoderForward (g : ℕ) (w : EncoderWeights) (xs : List (List ℚ)) :
    List (List ℚ) :=
  w.blockKernels.foldl (fun acc k => tokenizeBlock g k acc)
    (xs.map (denseApply w.embedKernel))

/-- An Encoder call as a state transformer: the output together with the
weights as they stand after the call (no encoder layer mutates state at
inference time). -/
def encoderCallST (g : ℕ) (w : EncoderWeights) (xs : List (List ℚ)) :
    List (List ℚ) × EncoderWeights :=
  (encoderForward g w xs, w)

/-- Claim C8: a forward pass of the Encoder leaves the weights unchanged, and
a second forward pass on the same input — run with the weights left by the
first — produces the identical output: the Encoder is a deterministic
function of its weights and input. -/
theorem encoder_deterministic (g : ℕ) (w : EncoderWeights) (xs : List (List ℚ)) :
    (encoderCallST g w xs).2 = w ∧
    (encoderCallST g (encoderCallST g w xs).2 xs).1 = (encoderCallST g w xs).1 :=
  ⟨rfl, rfl⟩

end Mlable
